import Mathlib

/-!
Verification of the nostrstats client core (src/client.py) against its
natural-language specification.

The Python code is shallowly embedded: dictionaries become association lists
(insertion order preserved, as in Python 3.7+ dicts), the network layer is
modelled as an oracle giving each polling round's EOSE count and buffered
event messages, pandas dataframes become explicit row/column lists, and
fallible code returns `Except`.
-/

namespace Nostrstats

/-- An event as used by `client.py` (pynostr `Event`): the fields the core
reads are `id`, `pubkey`, `created_at`, `kind` and `content`. -/
structure Event where
  id : String
  pubkey : String
  created_at : Nat
  kind : Nat
  content : String
deriving DecidableEq, Repr

/-- Lookup in an association list, first match wins (Python `d[k]` /
`k in d` over a dict with unique keys). -/
def lookupKey {β : Type} : List (String × β) → String → Option β
  | [], _ => none
  | (k0, v) :: rest, k => if k0 = k then some v else lookupKey rest k

/-- Python dict assignment `d[k] = v`: replaces the value at an existing key
in place (keeping the key's position), otherwise appends the new key at the
end (Python 3.7+ insertion order). -/
def upsertKey {β : Type} : List (String × β) → String → β → List (String × β)
  | [], k, v => [(k, v)]
  | (k0, v0) :: rest, k, v =>
    if k0 = k then (k0, v) :: rest else (k0, v0) :: upsertKey rest k v

/-- The event-drain loop of `Client.get_notes` (client.py lines 151-153):
`events[event_msg.event.id] = event_msg.event` for each buffered message,
in arrival order. -/
def drainEvents (msgs : List Event) : List (String × Event) :=
  msgs.foldl (fun acc e => upsertKey acc e.id e) []

/-- The last event of `msgs` carrying id `i` (used to state which event the
drain loop keeps for a given id). -/
def lastWithId (msgs : List Event) (i : String) : Option Event :=
  msgs.foldl (fun acc e => if e.id = i then some e else acc) none

/-- One polling round's observable network input: the number of EOSE signals
read from the message pool and the buffered event messages, for the round's
fresh subscription. -/
structure Round where
  eose : Nat
  msgs : List Event

/-- The quorum polling loop of `Client.get_notes` (client.py lines 131-158).
State: `iter` rounds executed so far, `eoseCount` and `events` from the most
recent round (`events` is reset and rebuilt every iteration). The Python
condition `eose_count < relay_count * 0.5` on integers equals
`2 * eoseCount < relayCount` (the float product is exact). `fuel` bounds the
observation window: `none` means the loop has not terminated within `fuel`
condition checks (the while loop itself may diverge). The per-round uuid
subscription token is external; the round index identifies the round here. -/
def getNotesAux (rounds : Nat → Round) (relayCount : Nat) :
    Nat → Nat → List (String × Event) → Nat → Option (Nat × List (String × Event))
  | _, _, _, 0 => none
  | iter, eoseCount, events, fuel + 1 =>
    if 2 * eoseCount < relayCount then
      getNotesAux rounds relayCount (iter + 1) (rounds iter).eose
        (drainEvents (rounds iter).msgs) fuel
    else some (iter, events)

/-- `Client.get_notes`: returns the number of loop-body iterations executed
and the final deduplicated event map. -/
def getNotes (rounds : Nat → Round) (relayCount : Nat) (fuel : Nat) :
    Option (Nat × List (String × Event)) :=
  getNotesAux rounds relayCount 0 0 [] fuel

/-- One step of the latest-event-per-author loop of `Client.get_relays`
(client.py lines 184-188, identically lines 229-235): keep `e` as its
author's representative iff (no representative yet, or the current one has a
strictly smaller `created_at`) and `e.content` is non-empty. -/
def resolveStep (m : List (String × Event)) (e : Event) : List (String × Event) :=
  if ((lookupKey m e.pubkey).all (fun rep => decide (rep.created_at < e.created_at))
      && decide (0 < e.content.length)) = true
  then upsertKey m e.pubkey e else m

/-- The latest-event-per-author resolution over the drained events, in map
iteration order. -/
def resolveLatest (events : List Event) : List (String × Event) :=
  events.foldl resolveStep []

/-- The output loop of `Client.get_relays` (client.py lines 190-194):
`output[pub] = list(json.loads(event.content).keys())`. JSON parsing is the
external `json` library, modelled by the parameter `jsonKeys` which returns
`none` exactly when the content is not valid JSON (then `json.loads` raises,
aborting the loop at that entry). -/
def relayListsOf (jsonKeys : String → Option (List String)) :
    List (String × Event) → Except String (List (String × List String))
  | [] => Except.ok []
  | (pub, e) :: rest =>
    match jsonKeys e.content with
    | none => Except.error "DecodeError"
    | some ks =>
      match relayListsOf jsonKeys rest with
      | Except.error msg => Except.error msg
      | Except.ok out => Except.ok ((pub, ks) :: out)

/-- `Client.get_relays` (client.py lines 172-194) applied to the drained
events of its query. -/
def getRelays (jsonKeys : String → Option (List String)) (events : List Event) :
    Except String (List (String × List String)) :=
  relayListsOf jsonKeys (resolveLatest events)

/-- `Client.get_own_relays` (client.py lines 160-170):
`return relays_per_user[npub_hex]` — a plain dict lookup, which raises
`KeyError` when the key is absent (e.g. when no relay-list event was
found). -/
def getOwnRelays (jsonKeys : String → Option (List String)) (events : List Event)
    (npubHex : String) : Except String (List String) :=
  match getRelays jsonKeys events with
  | Except.error msg => Except.error msg
  | Except.ok relaysPerUser =>
    match lookupKey relaysPerUser npubHex with
    | none => Except.error "KeyError"
    | some rs => Except.ok rs

/-- The filter loop of `Client.get_notifications` (client.py lines 207-210):
keep the drained events whose author differs from the canonical identity. -/
def getNotificationsData (events : List (String × Event)) (npubHex : String) :
    List Event :=
  (events.map Prod.snd).filter (fun e => decide (¬ e.pubkey = npubHex))

/-- The dataframe tail of `Client.get_notifications` (client.py lines
211-214): `pd.DataFrame(data)` followed by `df["created_at"]`. On an empty
`data` the frame has no columns and the column access raises `KeyError`; on
non-empty data every row dict carries the field and the frame is built. -/
def getNotificationsFrame (events : List (String × Event)) (npubHex : String) :
    Except String (List Event) :=
  let data := getNotificationsData events npubHex
  if data.isEmpty then Except.error "KeyError: created_at" else Except.ok data

/-- `Client.hex_from_npub` (client.py lines 99-112); bech32 decoding is the
external pynostr library, abstracted as `decodeNpub`. -/
def hexFromNpub (decodeNpub : String → String) (npub : String) : String :=
  if npub.startsWith "npub" then decodeNpub npub else npub

/-! ### The relay coverage engine (`Client.get_relay_statistics`)

The usage matrix `df` (client.py lines 301-313) has one row per relay
hostname and one column per follower public key, entry 1 when the follower
lists the relay and 0 otherwise, plus a `Count` column holding each row's
sum. `urllib.parse.urlparse(...).hostname` is the external URL library; the
relay strings of the model's input stand for the already-normalized
hostnames. A row is the pair of the relay and the list of followers with
entry 1; the set of columns still present is the list `alive`. -/

/-- Row sum of a relay's 0/1 row over the still-present follower columns:
`fs` is the list of followers with entry 1, `alive` the current columns. -/
def countIn (alive : List String) (fs : List String) : Nat :=
  (alive.filter (fun p => decide (p ∈ fs))).length

/-- First-appearance deduplication (the order in which pandas assembles the
row index from the dict-of-dicts `result`). -/
def firstDedup (l : List String) : List String :=
  l.foldl (fun acc r => if r ∈ acc then acc else acc ++ [r]) []

/-- All relay hostnames appearing in the input, in first-appearance order
(the row index of `df`). -/
def allRelays (rbp : List (String × List String)) : List String :=
  firstDedup (rbp.foldl (fun acc pr => acc ++ pr.2) [])

/-- The followers having entry 1 in relay `r`'s row, in column order. -/
def followersOf (rbp : List (String × List String)) (r : String) : List String :=
  (rbp.filter (fun pr => decide (r ∈ pr.2))).map Prod.fst

/-- The column index of `df`: the follower public keys (dict keys, unique). -/
def allPubs (rbp : List (String × List String)) : List String :=
  rbp.map Prod.fst

/-- The rows of the usage matrix, one per relay hostname. -/
def matrixRows (rbp : List (String × List String)) : List (String × List String) :=
  (allRelays rbp).map (fun r => (r, followersOf rbp r))

/-- Row order after `df.sort_values(["Count"], ascending=False)`: descending
remaining count. -/
def rowRel (alive : List String) (a b : String × List String) : Prop :=
  countIn alive b.2 ≤ countIn alive a.2

def rowRelDec (alive : List String) : DecidableRel (rowRel alive) :=
  fun _ _ => Nat.decLe _ _

/-- `df.sort_values(["Count"], ascending=False)` on the remaining rows. The
model's sort is stable; pandas' default quicksort leaves the order of
equal-count rows unspecified, and no settled statement below depends on the
order among ties. -/
def sortRows (alive : List String) (rows : List (String × List String)) :
    List (String × List String) :=
  @List.insertionSort _ (rowRel alive) (rowRelDec alive) rows

/-- The greedy while-loop of `Client.get_relay_statistics` (client.py lines
345-353). Precondition of each call: `rows` is sorted descending by
remaining count. The loop condition `new_df["Count"].iloc[0] > 0` evaluated
on an emptied frame raises, modelled by `Except.error "IndexError"`; on
success it returns the selection order together with the final remaining
rows and columns. Selecting the head row drops it, drops every column it
covers (`columns_to_drop = columns[values > 0]`; the `Count` column is
dropped and recomputed, which the remaining-count bookkeeping models), and
re-sorts. `fuel` only serves termination of the recursion; the top-level
call supplies enough fuel that it is never exhausted (each step removes one
row). -/
def coverLoop (fuel : Nat) (rows : List (String × List String)) (alive : List String)
    (acc : List String) :
    Except String (List String × List (String × List String) × List String) :=
  match fuel with
  | 0 => Except.error "fuel"
  | fuel' + 1 =>
    match rows with
    | [] => Except.error "IndexError"
    | (relay, fs) :: rest =>
      if 0 < countIn alive fs then
        let alive' := alive.filter (fun p => decide (¬ p ∈ fs))
        coverLoop fuel' (sortRows alive' rest) alive' (acc ++ [relay])
      else Except.ok (acc, (relay, fs) :: rest, alive)

/-- The whole minimal-cover computation, from the input
`f_relays_by_pub` mapping (follower public key → list of relay hostnames):
build the matrix, sort, run the greedy loop. -/
def minimalCoverFull (rbp : List (String × List String)) :
    Except String (List String × List (String × List String) × List String) :=
  coverLoop ((matrixRows rbp).length + 1) (sortRows (allPubs rbp) (matrixRows rbp))
    (allPubs rbp) []

/-- The selected relays, in selection order (the keys of the
`minimum_necessary_relays` dict). -/
def minimalCover (rbp : List (String × List String)) : Except String (List String) :=
  match minimalCoverFull rbp with
  | Except.error msg => Except.error msg
  | Except.ok t => Except.ok t.1

/-- The reported table rows (client.py lines 355-362): each selected relay
is paired with `df["Count"][relay]`, the relay's total count in the
ORIGINAL matrix (the sum of its row over all followers). -/
def minimalCoverPairs (rbp : List (String × List String)) :
    Except String (List (String × Nat)) :=
  match minimalCoverFull rbp with
  | Except.error msg => Except.error msg
  | Except.ok t => Except.ok (t.1.map (fun r => (r, countIn (allPubs rbp) (followersOf rbp r))))

/-- Modelled from the spec: "each entry's count is the *incremental*
followers newly covered by selecting that relay at that step, not the
relay's total usage" — the same greedy loop, but each selection records the
count of followers it newly covers. Stated only for comparison with
`minimalCoverPairs`, which is what the code computes. -/
def coverLoopIncr (fuel : Nat) (rows : List (String × List String)) (alive : List String)
    (acc : List (String × Nat)) : Except String (List (String × Nat)) :=
  match fuel with
  | 0 => Except.error "fuel"
  | fuel' + 1 =>
    match rows with
    | [] => Except.error "IndexError"
    | (relay, fs) :: rest =>
      if 0 < countIn alive fs then
        let alive' := alive.filter (fun p => decide (¬ p ∈ fs))
        coverLoopIncr fuel' (sortRows alive' rest) alive' (acc ++ [(relay, countIn alive fs)])
      else Except.ok acc

/-- Modelled from the spec: the minimal cover with incremental counts. -/
def minimalCoverIncr (rbp : List (String × List String)) :
    Except String (List (String × Nat)) :=
  coverLoopIncr ((matrixRows rbp).length + 1) (sortRows (allPubs rbp) (matrixRows rbp))
    (allPubs rbp) []

/-- `p` is covered by the relays of `acc`. -/
def coveredBy (rbp : List (String × List String)) (acc : List String) (p : String) : Prop :=
  ∃ r ∈ acc, p ∈ followersOf rbp r

/-- The spec's worked example {A: [r1, r2], B: [r2], C: [r3]} (relay strings
stand for hostnames). -/
def exCover1 : List (String × List String) :=
  [("A", ["r1", "r2"]), ("B", ["r2"]), ("C", ["r3"])]

/-- An input separating total from incremental counts: the second selected
relay r2 covers only D incrementally (A, B, C were covered by r1) but has
total count 2; r3 is left over with remaining count 0 so the loop exits
normally. -/
def exCover2 : List (String × List String) :=
  [("A", ["r1", "r2", "r3"]), ("B", ["r1"]), ("C", ["r1"]), ("D", ["r2"])]

/-! ### Association-list lemmas -/

theorem lookupKey_upsertKey {β : Type} (m : List (String × β)) (k : String) (v : β)
    (i : String) :
    lookupKey (upsertKey m k v) i = if k = i then some v else lookupKey m i := by
  induction m with
  | nil =>
    by_cases hki : k = i
    · simp [upsertKey, lookupKey, hki]
    · simp [upsertKey, lookupKey, hki]
  | cons hd tl ih =>
    obtain ⟨k0, v0⟩ := hd
    by_cases hk : k0 = k
    · subst hk
      by_cases hi : k0 = i
      · simp [upsertKey, lookupKey, hi]
      · simp [upsertKey, lookupKey, hi]
    · by_cases hi : k0 = i
      · have hki : ¬ k = i := fun h => hk (hi.trans h.symm)
        have hik : ¬ i = k := fun h => hk (hi.trans h)
        simp [upsertKey, lookupKey, hk, hi, hki, hik]
      · simp [upsertKey, lookupKey, hk, hi, ih]

theorem lookupKey_foldl_upsert (msgs : List Event) :
    ∀ (acc : List (String × Event)) (i : String),
      lookupKey (msgs.foldl (fun a e => upsertKey a e.id e) acc) i =
        msgs.foldl (fun a e => if e.id = i then some e else a) (lookupKey acc i) := by
  induction msgs with
  | nil => intro acc i; rfl
  | cons e ms ih =>
    intro acc i
    simp only [List.foldl_cons]
    rw [ih, lookupKey_upsertKey]

/-- C3 counterexample: two arrivals with the same id and different payloads;
the drained map stores the SECOND (later) arrival — a later arrival for an
id already present does replace the stored event, refuting first-seen-wins
as a statement about the mechanism. -/
theorem drainEvents_first_seen_cex :
    drainEvents [⟨"i1", "p1", 1, 1, "first"⟩, ⟨"i1", "p2", 2, 1, "second"⟩]
      = [("i1", ⟨"i1", "p2", 2, 1, "second"⟩)] ∧
    lookupKey (drainEvents [⟨"i1", "p1", 1, 1, "first"⟩, ⟨"i1", "p2", 2, 1, "second"⟩]) "i1"
      ≠ some ⟨"i1", "p1", 1, 1, "first"⟩ := by
  refine ⟨rfl, ?_⟩
  intro h
  have h2 : some (⟨"i1", "p2", 2, 1, "second"⟩ : Event)
      = some (⟨"i1", "p1", 1, 1, "first"⟩ : Event) := h
  simp at h2

/-- C3 (amended): the deduplicating map keyed by event id keeps, for each
id, the LAST-seen event of the round: `events[id] = event` overwrites, so a
later arrival for an id already present replaces the stored event (for
byte-identical duplicates the resulting map is the same either way). -/
theorem drainEvents_last_wins :
    ∀ (msgs : List Event) (i : String),
      lookupKey (drainEvents msgs) i = lastWithId msgs i := by
  intro msgs i
  unfold drainEvents lastWithId
  rw [lookupKey_foldl_upsert]
  rfl

/-! ### Latest-event resolution (C5) -/

theorem resolveLatest_append (es : List Event) (e : Event) :
    resolveLatest (es ++ [e]) = resolveStep (resolveLatest es) e := by
  unfold resolveLatest
  rw [List.foldl_append]
  rfl

/-- C5: the stored representative of an author changes exactly per the
rule of `Client.get_relays`: it is created or replaced only by an event of
that author with strictly greater `created_at` (ties keep the first-seen
event) and, the non-empty-content requirement being always on in the code,
only by an event with non-empty content; other authors are untouched. In
particular for two non-empty events at created_at 100 and 200 the
representative is the one at 200, and if the one at 200 has empty content
the one at 100 remains representative. -/
theorem resolveLatest_replacement_rule :
    (∀ (es : List Event) (e : Event),
      lookupKey (resolveLatest (es ++ [e])) e.pubkey =
        match lookupKey (resolveLatest es) e.pubkey with
        | none => if 0 < e.content.length then some e else none
        | some rep =>
          if rep.created_at < e.created_at ∧ 0 < e.content.length then some e
          else some rep) ∧
    (∀ (es : List Event) (e : Event) (a : String), a ≠ e.pubkey →
      lookupKey (resolveLatest (es ++ [e])) a = lookupKey (resolveLatest es) a) ∧
    lookupKey (resolveLatest [⟨"i1", "au", 100, 3, "c1"⟩, ⟨"i2", "au", 200, 3, "c2"⟩]) "au"
      = some ⟨"i2", "au", 200, 3, "c2"⟩ ∧
    lookupKey (resolveLatest [⟨"i1", "au", 100, 3, "c1"⟩, ⟨"i2", "au", 200, 3, ""⟩]) "au"
      = some ⟨"i1", "au", 100, 3, "c1"⟩ := by
  refine ⟨?_, ?_, rfl, rfl⟩
  · intro es e
    rw [resolveLatest_append]
    unfold resolveStep
    cases h : lookupKey (resolveLatest es) e.pubkey with
    | none =>
      by_cases hc : 0 < e.content.length
      · simp [h, Option.all, hc, lookupKey_upsertKey]
      · simp [h, Option.all, hc]
    | some rep =>
      by_cases hlt : rep.created_at < e.created_at
      · by_cases hc : 0 < e.content.length
        · simp [h, Option.all, hlt, hc, lookupKey_upsertKey]
        · simp [h, Option.all, hlt, hc]
      · by_cases hc : 0 < e.content.length
        · simp [h, Option.all, hlt, hc]
        · simp [h, Option.all, hlt, hc]
  · intro es e a ha
    rw [resolveLatest_append]
    unfold resolveStep
    split_ifs with hcond
    · rw [lookupKey_upsertKey, if_neg (fun h => ha h.symm)]
    · rfl

theorem resolveLatest_replacement_rule_witness :
    lookupKey (resolveLatest ([] ++ [⟨"i1", "au", 100, 3, "c1"⟩])) "other"
      = lookupKey (resolveLatest []) "other" :=
  resolveLatest_replacement_rule.2.1 [] ⟨"i1", "au", 100, 3, "c1"⟩ "other" (by decide)

/-! ### Notifications (C10, C6) -/

/-- C10: the notification data excludes every event authored by the queried
identity itself, and keeps exactly the drained events of other authors, in
order — the self-authored events are filtered out before any statistics are
computed. -/
theorem notifications_exclude_self :
    (∀ (events : List (String × Event)) (npubHex : String) (e : Event),
        e ∈ getNotificationsData events npubHex → e.pubkey ≠ npubHex) ∧
    (∀ (events : List (String × Event)) (npubHex : String) (e : Event),
        e ∈ events.map Prod.snd → e.pubkey ≠ npubHex →
          e ∈ getNotificationsData events npubHex) := by
  constructor
  · intro events npubHex e he
    have h := (List.mem_filter.mp he).2
    simpa using h
  · intro events npubHex e he hne
    exact List.mem_filter.mpr ⟨he, by simpa using hne⟩

theorem notifications_exclude_self_witness :
    (⟨"i1", "p1", 5, 1, "c"⟩ : Event).pubkey ≠ "me" :=
  notifications_exclude_self.1 [("i1", ⟨"i1", "p1", 5, 1, "c"⟩)] "me"
    ⟨"i1", "p1", 5, 1, "c"⟩ (by decide)

/-- C6 counterexample: with zero recovered events the downstream stages DO
raise instead of accepting the empty value: `get_own_relays` hits the
KeyError of `relays_per_user[npub_hex]` on the empty mapping, and
`get_notifications` the KeyError of `df["created_at"]` on the empty
frame. -/
theorem emptyResult_raises_cex :
    getOwnRelays (fun _ => some []) [] "pk" = Except.error "KeyError" ∧
    getNotificationsFrame [] "pk" = Except.error "KeyError: created_at" :=
  ⟨rfl, rfl⟩

/-- C6 (amended): when a required query recovers zero events the downstream
stages raise rather than treat the empty mapping/sequence as valid:
`get_own_relays` always fails with a key lookup error on the empty event
set, and `get_notifications` fails building the date column whenever the
filtered data is empty. -/
theorem emptyResult_raises :
    (∀ (jsonKeys : String → Option (List String)) (npubHex : String),
        getOwnRelays jsonKeys [] npubHex = Except.error "KeyError") ∧
    (∀ (npubHex : String) (events : List (String × Event)),
        getNotificationsData events npubHex = [] →
          getNotificationsFrame events npubHex = Except.error "KeyError: created_at") := by
  constructor
  · intro jk npub
    rfl
  · intro npub events h
    unfold getNotificationsFrame
    simp [h]

theorem emptyResult_raises_witness :
    getNotificationsFrame [("i1", ⟨"i1", "me", 5, 1, "c"⟩)] "me"
      = Except.error "KeyError: created_at" :=
  emptyResult_raises.2 "me" [("i1", ⟨"i1", "me", 5, 1, "c"⟩)] (by rfl)

/-! ### Relay-list decoding (C7) -/

theorem relayListsOf_error_of_bad (jsonKeys : String → Option (List String)) :
    ∀ (l : List (String × Event)) (pub : String) (e : Event),
      (pub, e) ∈ l → jsonKeys e.content = none →
      ∃ msg, relayListsOf jsonKeys l = Except.error msg := by
  intro l
  induction l with
  | nil => intro pub e h _; cases h
  | cons hd tl ih =>
    intro pub e hmem hnone
    obtain ⟨p0, e0⟩ := hd
    rcases List.mem_cons.mp hmem with heq | htl
    · cases heq
      exact ⟨"DecodeError", by simp [relayListsOf, hnone]⟩
    · obtain ⟨msg, hmsg⟩ := ih pub e htl hnone
      cases hjk : jsonKeys e0.content with
      | none => exact ⟨"DecodeError", by simp [relayListsOf, hjk]⟩
      | some ks => exact ⟨msg, by simp [relayListsOf, hjk, hmsg]⟩

/-- C7 counterexample: one good and one undecodable relay-list event; the
whole resolution aborts with a decode error instead of skipping the bad
event and returning the remaining relay lists. -/
theorem getRelays_decode_abort_cex :
    getRelays (fun s => if s = "good" then some ["r1"] else none)
        [⟨"i1", "p1", 10, 3, "good"⟩, ⟨"i2", "p2", 10, 3, "bad"⟩]
      = Except.error "DecodeError" := rfl

/-- C7 (amended): an event whose content is not valid JSON is NOT skipped:
whenever any resolved representative's content fails to decode, the whole
`get_relays` resolution aborts with an error and no relay lists are
returned. -/
theorem getRelays_decode_abort :
    ∀ (jsonKeys : String → Option (List String)) (events : List Event)
      (pub : String) (e : Event),
      (pub, e) ∈ resolveLatest events → jsonKeys e.content = none →
      ∃ msg, getRelays jsonKeys events = Except.error msg :=
  fun jk events pub e hmem hnone =>
    relayListsOf_error_of_bad jk (resolveLatest events) pub e hmem hnone

theorem getRelays_decode_abort_witness :
    ∃ msg, getRelays (fun _ => none) [⟨"i1", "p1", 10, 3, "c"⟩] = Except.error msg :=
  getRelays_decode_abort (fun _ => none) [⟨"i1", "p1", 10, 3, "c"⟩] "p1"
    ⟨"i1", "p1", 10, 3, "c"⟩ (by decide) rfl

/-! ### The quorum loop (C8) -/

/-- C8 counterexample: with zero active relays the loop body never runs —
`get_notes` returns after 0 iterations, not after one iteration. -/
theorem getNotes_zero_relays_cex :
    getNotes (fun _ => ⟨0, []⟩) 0 1 = some (0, []) ∧ (0 : Nat) ≠ 1 :=
  ⟨rfl, by decide⟩

/-- C8 (amended): with zero active relays the quorum threshold is 0, the
loop condition `0 < 0 * 0.5` is already false at the first check, and query
exits immediately after ZERO iterations with an empty mapping — no division
by zero, no error, no blocking. -/
theorem getNotes_zero_relays :
    ∀ (rounds : Nat → Round) (fuel : Nat), 0 < fuel →
      getNotes rounds 0 fuel = some (0, []) := by
  intro rounds fuel hf
  obtain ⟨f, rfl⟩ : ∃ f, fuel = f + 1 := ⟨fuel - 1, by omega⟩
  rfl

theorem getNotes_zero_relays_witness :
    getNotes (fun _ => ⟨1, []⟩) 0 3 = some (0, []) :=
  getNotes_zero_relays (fun _ => ⟨1, []⟩) 3 (by decide)

/-! ### Coverage-matrix lemmas -/

theorem mem_sortRows {alive : List String} {rows : List (String × List String)}
    {row : String × List String} :
    row ∈ sortRows alive rows ↔ row ∈ rows :=
  (@List.perm_insertionSort _ (rowRel alive) (rowRelDec alive) rows).mem_iff

theorem sortRows_sorted (alive : List String) (rows : List (String × List String)) :
    List.Sorted (rowRel alive) (sortRows alive rows) := by
  haveI h1 : IsTotal (String × List String) (rowRel alive) :=
    ⟨fun a b => Nat.le_total (countIn alive b.2) (countIn alive a.2)⟩
  haveI h2 : IsTrans (String × List String) (rowRel alive) :=
    ⟨fun _ _ _ hab hbc => Nat.le_trans hbc hab⟩
  exact @List.sorted_insertionSort _ (rowRel alive) (rowRelDec alive) h1 h2 rows

theorem countIn_pos_of_mem {alive fs : List String} {p : String}
    (hp : p ∈ alive) (hf : p ∈ fs) : 0 < countIn alive fs := by
  unfold countIn
  have hmem : p ∈ alive.filter (fun q => decide (q ∈ fs)) :=
    List.mem_filter.mpr ⟨hp, by simpa using hf⟩
  exact List.length_pos.mpr (List.ne_nil_of_mem hmem)

theorem not_mem_of_countIn_zero {alive fs : List String} {p : String}
    (h : countIn alive fs = 0) (hp : p ∈ alive) : ¬ p ∈ fs := by
  intro hf
  have := countIn_pos_of_mem hp hf
  omega

theorem fs_eq_of_mem_matrixRows {rbp : List (String × List String)}
    {r : String} {fs : List String} (h : (r, fs) ∈ matrixRows rbp) :
    fs = followersOf rbp r ∧ r ∈ allRelays rbp := by
  unfold matrixRows at h
  rcases List.mem_map.mp h with ⟨r0, hr0, heq⟩
  cases heq
  exact ⟨rfl, hr0⟩

theorem mem_allPubs_of_mem_followersOf {rbp : List (String × List String)}
    {r p : String} (h : p ∈ followersOf rbp r) : p ∈ allPubs rbp := by
  unfold followersOf at h
  rcases List.mem_map.mp h with ⟨pr, hpr, heq⟩
  exact heq ▸ List.mem_map.mpr ⟨pr, (List.mem_filter.mp hpr).1, rfl⟩

theorem coveredBy_append {rbp : List (String × List String)} {acc : List String}
    {relay p : String} :
    coveredBy rbp (acc ++ [relay]) p ↔ coveredBy rbp acc p ∨ p ∈ followersOf rbp relay := by
  constructor
  · rintro ⟨r, hr, hp⟩
    rcases List.mem_append.mp hr with h | h
    · exact Or.inl ⟨r, h, hp⟩
    · rw [List.mem_singleton.mp h] at hp
      exact Or.inr hp
  · rintro (⟨r, hr, hp⟩ | hp)
    · exact ⟨r, List.mem_append.mpr (Or.inl hr), hp⟩
    · exact ⟨relay, List.mem_append.mpr (Or.inr (List.mem_singleton.mpr rfl)), hp⟩

/-- Invariant proof for the greedy loop: on normal exit, the selected relays
cover exactly the followers of relays with nonzero initial count. -/
theorem coverLoop_union (rbp : List (String × List String)) :
    ∀ (fuel : Nat) (rows : List (String × List String)) (alive acc : List String)
      (res : List String × List (String × List String) × List String),
      coverLoop fuel rows alive acc = Except.ok res →
      (∀ p, p ∈ alive ↔ p ∈ allPubs rbp ∧ ¬ coveredBy rbp acc p) →
      (∀ row ∈ rows, row ∈ matrixRows rbp) →
      (∀ row ∈ matrixRows rbp, row ∈ rows ∨ row.1 ∈ acc) →
      List.Sorted (rowRel alive) rows →
      (∀ r ∈ acc, r ∈ allRelays rbp) →
      ∀ p, coveredBy rbp res.1 p ↔
        ∃ r ∈ allRelays rbp, 0 < countIn (allPubs rbp) (followersOf rbp r) ∧
          p ∈ followersOf rbp r := by
  intro fuel
  induction fuel with
  | zero =>
    intro rows alive acc res h
    exact absurd h (by simp [coverLoop])
  | succ f ih =>
    intro rows alive acc res h h1 h2 h3 h4 h5
    cases rows with
    | nil => exact absurd h (by simp [coverLoop])
    | cons hd rest =>
      obtain ⟨relay, fs⟩ := hd
      have hfs : fs = followersOf rbp relay ∧ relay ∈ allRelays rbp :=
        fs_eq_of_mem_matrixRows (h2 (relay, fs) (List.mem_cons_self _ _))
      by_cases hc : 0 < countIn alive fs
      · simp only [coverLoop, if_pos hc] at h
        refine ih (sortRows (alive.filter (fun p => decide (¬ p ∈ fs)))  rest)
          (alive.filter (fun p => decide (¬ p ∈ fs))) (acc ++ [relay]) res h
          ?_ ?_ ?_ ?_ ?_
        · intro p
          rw [List.mem_filter]
          rw [h1 p, coveredBy_append]
          constructor
          · rintro ⟨⟨hP, hnc⟩, hnf⟩
            refine ⟨hP, ?_⟩
            rintro (hcv | hfl)
            · exact hnc hcv
            · rw [← hfs.1] at hfl
              simp at hnf
              exact hnf hfl
          · rintro ⟨hP, hncv⟩
            refine ⟨⟨hP, fun hcv => hncv (Or.inl hcv)⟩, ?_⟩
            simp only [decide_eq_true_eq]
            intro hfl
            exact hncv (Or.inr (hfs.1 ▸ hfl))
        · intro row hrow
          exact h2 row (List.mem_cons_of_mem _ (mem_sortRows.mp hrow))
        · intro row hrow
          rcases h3 row hrow with hr | hr
          · rcases List.mem_cons.mp hr with heq | htl
            · right
              rw [heq]
              exact List.mem_append.mpr (Or.inr (List.mem_singleton.mpr rfl))
            · exact Or.inl (mem_sortRows.mpr htl)
          · exact Or.inr (List.mem_append.mpr (Or.inl hr))
        · exact sortRows_sorted _ _
        · intro r hr
          rcases List.mem_append.mp hr with hr | hr
          · exact h5 r hr
          · rw [List.mem_singleton.mp hr]
            exact hfs.2
      · simp only [coverLoop, if_neg hc] at h
        have hres : res = (acc, (relay, fs) :: rest, alive) := by
          cases h
          rfl
        subst hres
        have hzero : countIn alive fs = 0 := by omega
        intro p
        constructor
        · rintro ⟨r, hr, hp⟩
          exact ⟨r, h5 r hr,
            countIn_pos_of_mem (mem_allPubs_of_mem_followersOf hp) hp, hp⟩
        · rintro ⟨r, hrR, _, hp⟩
          have hrow : (r, followersOf rbp r) ∈ matrixRows rbp :=
            List.mem_map.mpr ⟨r, hrR, rfl⟩
          rcases h3 _ hrow with hr | hr
          · have hcount0 : countIn alive (followersOf rbp r) = 0 := by
              rcases List.mem_cons.mp hr with heq | htl
              · have : followersOf rbp r = fs := by
                  have := congrArg Prod.snd heq
                  simpa using this
                rw [this]
                exact hzero
              · have hrel := (List.sorted_cons.mp h4).1 _ htl
                have hrel' : countIn alive (followersOf rbp r) ≤ countIn alive fs := hrel
                omega
            have hnal : ¬ p ∈ alive := fun hal =>
              not_mem_of_countIn_zero hcount0 hal hp
            have hP : p ∈ allPubs rbp := mem_allPubs_of_mem_followersOf hp
            by_contra hncv
            exact hnal ((h1 p).mpr ⟨hP, hncv⟩)
          · exact ⟨r, hr, hp⟩

/-- C1: whenever the minimal-cover computation returns, the union of
followers covered by the selected relays equals the union of followers
across all relays with nonzero initial usage count; on the spec's example
the selected set is exactly [r2, r3] (size 2) and the covered union is
[A, B, C]. -/
theorem minimalCover_union_eq :
    (∀ (rbp : List (String × List String)) (sel : List String),
      minimalCover rbp = Except.ok sel →
      ∀ p, (∃ r ∈ sel, p ∈ followersOf rbp r) ↔
        ∃ r ∈ allRelays rbp, 0 < countIn (allPubs rbp) (followersOf rbp r) ∧
          p ∈ followersOf rbp r) ∧
    (minimalCover exCover1 = Except.ok ["r2", "r3"] ∧
      (["r2", "r3"].map (followersOf exCover1)).flatten = ["A", "B", "C"]) := by
  refine ⟨?_, rfl, rfl⟩
  intro rbp sel hsel p
  unfold minimalCover at hsel
  cases hfull : minimalCoverFull rbp with
  | error msg => rw [hfull] at hsel; simp at hsel
  | ok res =>
    rw [hfull] at hsel
    simp only [Except.ok.injEq] at hsel
    subst hsel
    have hfull' : coverLoop ((matrixRows rbp).length + 1)
        (sortRows (allPubs rbp) (matrixRows rbp)) (allPubs rbp) [] = Except.ok res :=
      hfull
    exact coverLoop_union rbp _ _ _ _ res hfull'
      (fun p => by simp [coveredBy])
      (fun row hrow => mem_sortRows.mp hrow)
      (fun row hrow => Or.inl (mem_sortRows.mpr hrow))
      (sortRows_sorted _ _)
      (fun r hr => absurd hr (List.not_mem_nil r)) p

theorem minimalCover_union_eq_witness :
    (∃ r ∈ ["r2", "r3"], "A" ∈ followersOf exCover1 r) ↔
      ∃ r ∈ allRelays exCover1,
        0 < countIn (allPubs exCover1) (followersOf exCover1 r) ∧
          "A" ∈ followersOf exCover1 r :=
  minimalCover_union_eq.1 exCover1 ["r2", "r3"] rfl "A"

theorem nodup_firstDedup (l : List String) : (firstDedup l).Nodup := by
  unfold firstDedup
  suffices h : ∀ (acc : List String), acc.Nodup →
      (l.foldl (fun acc r => if r ∈ acc then acc else acc ++ [r]) acc).Nodup from
    h [] List.nodup_nil
  induction l with
  | nil => intro acc hacc; exact hacc
  | cons r rs ih =>
    intro acc hacc
    simp only [List.foldl_cons]
    by_cases hr : r ∈ acc
    · rw [if_pos hr]
      exact ih acc hacc
    · rw [if_neg hr]
      refine ih _ ?_
      simp [List.nodup_append, hacc, hr]

theorem matrixRows_map_fst (rbp : List (String × List String)) :
    (matrixRows rbp).map Prod.fst = allRelays rbp := by
  unfold matrixRows
  rw [List.map_map]
  have hco : (Prod.fst ∘ fun r : String => (r, followersOf rbp r)) = fun r => r := rfl
  rw [hco]
  exact List.map_id _

/-- On normal exit the greedy loop's remaining matrix is headed by a
zero-count row whose relay was never selected. -/
theorem coverLoop_ok_shape :
    ∀ (fuel : Nat) (rows : List (String × List String)) (alive acc : List String)
      (res : List String × List (String × List String) × List String),
      coverLoop fuel rows alive acc = Except.ok res →
      (∀ row ∈ rows, ¬ row.1 ∈ acc) →
      (rows.map Prod.fst).Nodup →
      ∃ relay fs rest, res.2.1 = (relay, fs) :: rest ∧
        countIn res.2.2 fs = 0 ∧ ¬ relay ∈ res.1 := by
  intro fuel
  induction fuel with
  | zero =>
    intro rows alive acc res h _ _
    exact absurd h (by simp [coverLoop])
  | succ f ih =>
    intro rows alive acc res h hdis hnd
    cases rows with
    | nil => exact absurd h (by simp [coverLoop])
    | cons hd rest =>
      obtain ⟨relay, fs⟩ := hd
      by_cases hc : 0 < countIn alive fs
      · simp only [coverLoop, if_pos hc] at h
        refine ih _ _ _ res h ?_ ?_
        · intro row hrow hmem
          have hrest : row ∈ rest := mem_sortRows.mp hrow
          rcases List.mem_append.mp hmem with hmem | hmem
          · exact hdis row (List.mem_cons_of_mem _ hrest) hmem
          · have h1 : row.1 ∈ rest.map Prod.fst := List.mem_map.mpr ⟨row, hrest, rfl⟩
            have h2 : relay ∈ rest.map Prod.fst := by
              rw [← List.mem_singleton.mp hmem]
              exact h1
            have hn : ¬ relay ∈ rest.map Prod.fst := by
              simp only [List.map_cons] at hnd
              exact (List.nodup_cons.mp hnd).1
            exact hn h2
        · have hperm : List.Perm
              ((sortRows (alive.filter fun p => decide (¬ p ∈ fs)) rest).map Prod.fst)
              (rest.map Prod.fst) :=
            (@List.perm_insertionSort _ (rowRel _) (rowRelDec _) rest).map Prod.fst
          refine hperm.nodup_iff.mpr ?_
          simp only [List.map_cons] at hnd
          exact (List.nodup_cons.mp hnd).2
      · simp only [coverLoop, if_neg hc] at h
        have hres : res = (acc, (relay, fs) :: rest, alive) := by
          cases h
          rfl
        subst hres
        refine ⟨relay, fs, rest, rfl, ?_, hdis (relay, fs) (List.mem_cons_self _ _)⟩
        show countIn alive fs = 0
        omega

/-- C9: the greedy loop terminates normally only when at least one relay row
remains unselected in the matrix with zero remaining follower count (it is
the head of the final sorted matrix); on an input whose cover requires
selecting every relay — a single follower using a single relay — the loop
condition evaluated on the emptied matrix raises an indexing error instead
of returning the computed cover. -/
theorem coverLoop_exit_shape :
    (∀ (rbp : List (String × List String))
        (res : List String × List (String × List String) × List String),
      minimalCoverFull rbp = Except.ok res →
      ∃ relay fs rest, res.2.1 = (relay, fs) :: rest ∧
        countIn res.2.2 fs = 0 ∧ ¬ relay ∈ res.1) ∧
    minimalCover [("A", ["r1"])] = Except.error "IndexError" := by
  refine ⟨?_, rfl⟩
  intro rbp res h
  have h' : coverLoop ((matrixRows rbp).length + 1)
      (sortRows (allPubs rbp) (matrixRows rbp)) (allPubs rbp) [] = Except.ok res := h
  refine coverLoop_ok_shape _ _ _ _ res h'
    (fun row _ hmem => absurd hmem (List.not_mem_nil _)) ?_
  have hperm : List.Perm ((sortRows (allPubs rbp) (matrixRows rbp)).map Prod.fst)
      ((matrixRows rbp).map Prod.fst) :=
    (@List.perm_insertionSort _ (rowRel _) (rowRelDec _) (matrixRows rbp)).map Prod.fst
  exact hperm.nodup_iff.mpr (matrixRows_map_fst rbp ▸ nodup_firstDedup _)

theorem coverLoop_exit_shape_witness :
    ∃ relay fs rest,
      ((["r2", "r3"], [("r1", ["A"])], ([] : List String)) :
          List String × List (String × List String) × List String).2.1
        = (relay, fs) :: rest ∧
      countIn ((["r2", "r3"], [("r1", ["A"])], ([] : List String)) :
          List String × List (String × List String) × List String).2.2 fs = 0 ∧
      ¬ relay ∈ ((["r2", "r3"], [("r1", ["A"])], ([] : List String)) :
          List String × List (String × List String) × List String).1 :=
  coverLoop_exit_shape.1 exCover1 (["r2", "r3"], [("r1", ["A"])], []) rfl

/-- C2 counterexample: on exCover2 the code reports for the second selected
relay its TOTAL initial usage count 2, while the incremental number of
followers newly covered at that step is 1, so the reported counts are not
the incremental counts. -/
theorem minimalCoverPairs_not_incremental_cex :
    minimalCoverPairs exCover2 = Except.ok [("r1", 3), ("r2", 2)] ∧
    minimalCoverIncr exCover2 = Except.ok [("r1", 3), ("r2", 1)] ∧
    minimalCoverPairs exCover2 ≠ minimalCoverIncr exCover2 := by
  refine ⟨rfl, rfl, fun h => ?_⟩
  have h2 : (Except.ok [("r1", 3), ("r2", 2)] : Except String (List (String × Nat)))
      = Except.ok [("r1", 3), ("r2", 1)] := h
  simp at h2

/-- C2 (amended): the minimal-cover output preserves selection order, but
each entry reports the relay's TOTAL initial usage count — its row sum in
the original matrix — not the incremental number of followers newly covered
at that step of the greedy selection. -/
theorem minimalCoverPairs_total_counts :
    (∀ (rbp : List (String × List String)) (sel : List String),
      minimalCover rbp = Except.ok sel →
      minimalCoverPairs rbp =
        Except.ok (sel.map (fun r => (r, countIn (allPubs rbp) (followersOf rbp r))))) ∧
    minimalCoverPairs exCover2 = Except.ok [("r1", 3), ("r2", 2)] := by
  refine ⟨?_, rfl⟩
  intro rbp sel h
  unfold minimalCover at h
  unfold minimalCoverPairs
  cases hfull : minimalCoverFull rbp with
  | error msg => rw [hfull] at h; simp at h
  | ok t =>
    rw [hfull] at h
    simp only [Except.ok.injEq] at h
    simp [h]

theorem minimalCoverPairs_total_counts_witness :
    minimalCoverPairs exCover2 =
      Except.ok (["r1", "r2"].map
        (fun r => (r, countIn (allPubs exCover2) (followersOf exCover2 r)))) :=
  minimalCoverPairs_total_counts.1 exCover2 ["r1", "r2"] rfl

/-! ### The quorum loop (C4) -/

/-- Characterization of a terminating run of the polling loop relative to an
arbitrary start state. -/
theorem getNotesAux_ok (rounds : Nat → Round) (relayCount : Nat) :
    ∀ (fuel iter eoseCount : Nat) (events : List (String × Event))
      (k : Nat) (out : List (String × Event)),
      getNotesAux rounds relayCount iter eoseCount events fuel = some (k, out) →
      (¬ 2 * eoseCount < relayCount ∧ k = iter ∧ out = events) ∨
      (2 * eoseCount < relayCount ∧ iter < k ∧
        ¬ 2 * (rounds (k - 1)).eose < relayCount ∧
        out = drainEvents (rounds (k - 1)).msgs ∧
        ∀ j, iter ≤ j → j + 1 < k → 2 * (rounds j).eose < relayCount) := by
  intro fuel
  induction fuel with
  | zero =>
    intro iter ec evs k out h
    exact absurd h (by simp [getNotesAux])
  | succ f ih =>
    intro iter ec evs k out h
    by_cases hc : 2 * ec < relayCount
    · right
      simp only [getNotesAux, if_pos hc] at h
      rcases ih (iter + 1) (rounds iter).eose (drainEvents (rounds iter).msgs) k out h with
        ⟨hq, hk, hout⟩ | ⟨hq, hlt, hkq, hout, hall⟩
      · subst hk
        refine ⟨hc, by omega, ?_, ?_, ?_⟩
        · simpa using hq
        · simpa using hout
        · intro j hj1 hj2
          omega
      · refine ⟨hc, by omega, hkq, hout, ?_⟩
        intro j hj1 hj2
        rcases Nat.eq_or_lt_of_le hj1 with heq | hj
        · rw [← heq]
          exact hq
        · exact hall j (by omega) hj2
    · left
      simp only [getNotesAux, if_neg hc, Option.some.injEq, Prod.mk.injEq] at h
      exact ⟨hc, h.1.symm, h.2.symm⟩

/-- C4: the query loop repeats — a fresh subscription per round, the event
map discarded and rebuilt from scratch each iteration — exactly until
eoseCount ≥ 0.5·activeRelayCount: any terminating run with a positive relay
count ran at least one iteration, its final round met the quorum, every
earlier round missed it, and the returned map is built from the final round
alone; with 4 active relays of which 2 signal EOSE immediately every round,
the loop terminates after exactly one iteration with round 0's events. -/
theorem getNotes_quorum_termination :
    (∀ (rounds : Nat → Round) (relayCount fuel k : Nat)
        (out : List (String × Event)), 0 < relayCount →
      getNotes rounds relayCount fuel = some (k, out) →
      1 ≤ k ∧ relayCount ≤ 2 * (rounds (k - 1)).eose ∧
        (∀ j, j + 1 < k → 2 * (rounds j).eose < relayCount) ∧
        out = drainEvents (rounds (k - 1)).msgs) ∧
    (∀ (rounds : Nat → Round) (fuel : Nat),
      (∀ i, (rounds i).eose = 2) → 2 ≤ fuel →
      getNotes rounds 4 fuel = some (1, drainEvents (rounds 0).msgs)) := by
  constructor
  · intro rounds rc fuel k out hrc h
    rcases getNotesAux_ok rounds rc fuel 0 0 [] k out h with
      ⟨hq, _, _⟩ | ⟨_, hlt, hkq, hout, hall⟩
    · omega
    · exact ⟨by omega, by omega, fun j hj => hall j (Nat.zero_le j) hj, hout⟩
  · intro rounds fuel h2 hf
    obtain ⟨f, rfl⟩ : ∃ f, fuel = f + 2 := ⟨fuel - 2, by omega⟩
    show getNotesAux rounds 4 0 0 [] (f + 2) = some (1, drainEvents (rounds 0).msgs)
    have hstep : getNotesAux rounds 4 0 0 [] (f + 2)
        = getNotesAux rounds 4 1 (rounds 0).eose (drainEvents (rounds 0).msgs) (f + 1) := by
      simp [getNotesAux]
    rw [hstep]
    have hdone : ¬ 2 * (rounds 0).eose < 4 := by
      rw [h2 0]
      omega
    simp only [getNotesAux, if_neg hdone]

theorem getNotes_quorum_termination_witness :
    getNotes (fun _ => ⟨2, []⟩) 4 2 = some (1, []) :=
  getNotes_quorum_termination.2 (fun _ => ⟨2, []⟩) 2 (fun _ => rfl) (by omega)

end Nostrstats
